import Mathlib

/-!
# EduDraw — verification of the draw/animation core

Shallow embedding of the EduDraw classroom random-selection tool
(React/TypeScript) and proofs about its core algorithms:

* the spin-wheel landing-angle computation (`SpinWheel`),
* the lane-race speed/duration biasing (`DuckRace`, `MarbleRace`),
* the no-repeat sampling pool (`selectNameIndex`, `selectTask`),
* the group partitioner (`handleDraw`, groups branch),
* the bounded history log (`logHistory`),
* the timer/frame cancellation structure of the four simulators.

JavaScript numbers are modelled as exact rationals (`ℚ`) except where the
source calls `Math.sin`, which forces real arithmetic (`ℝ`).  Calls to
`Math.random()` are modelled by explicit parameters: either a rational in
`[0,1)` or the already-floored index `⌊random * len⌋ < len`.
-/

namespace EduDraw

/-! ## Data model (src: types, `AppState`, `HistoryEntry`) -/

/-- The four draw modes of the orchestrator (src/unnamed/part_000, `DrawMode`). -/
inductive DrawMode where
  | single
  | paired
  | groups
  | interactive
deriving DecidableEq, Repr

/-- The four interactive visualizations (src/unnamed/part_000, `InteractiveMode`). -/
inductive InteractiveMode where
  | wheel
  | race
  | marble
  | card
deriving DecidableEq, Repr

/-- One history record (src/unnamed/part_000, `HistoryEntry`). -/
structure HistoryEntry where
  id : ℕ
  result : String
  mode : DrawMode
  timestamp : String
  groups : Option (List (List String)) := none
deriving DecidableEq, Repr

/-- The orchestrator's state (src/unnamed/part_000, `AppState`). -/
structure AppState where
  names : List String
  tasks : List String
  history : List HistoryEntry
  isNameNoRepeat : Bool
  availableNamesIndices : List ℕ
  isTaskNoRepeat : Bool
  availableTasksIndices : List ℕ
  mode : DrawMode
  interactiveMode : InteractiveMode
  numGroups : ℕ
deriving DecidableEq, Repr

/-! ## Wheel simulator angle computation (src/unnamed/part_001, lines 24–53)

The spin effect computes, from the predetermined `winnerIndex` and the
accumulated rotation `lastRotation` of the previous spin:

```js
const Ac = winnerIndex * segmentAngle + (segmentAngle / 2);
const V = lastRotation % 360;
let minRotationDelta = (L - V + 360) % 360;
if (minRotationDelta < 1) minRotationDelta += 360;
const rotationDelta = minRotationDelta + (360 * fullSpins);   // fullSpins = 5
const newTotalRotation = lastRotation + rotationDelta;
```
-/

/-- JavaScript's `%` on numbers, for a non-negative dividend and positive
divisor (the only way the wheel code uses it): `x - y * ⌊x / y⌋`. -/
def jsMod (x y : ℚ) : ℚ := x - y * ⌊x / y⌋

/-- The segment angle `360 / numSegments` (src/unnamed/part_001 line 22). -/
def segmentAngle (n : ℕ) : ℚ := 360 / n

/-- The value `Ac`, the center angle of the winning segment (line 29). -/
def segCenter (n idx : ℕ) : ℚ := idx * segmentAngle n + segmentAngle n / 2

/-- The value of `minRotationDelta` before the degenerate-spin bump (line 33):
`(Ac - lastRotation % 360 + 360) % 360`. -/
def spinMinDelta (n idx : ℕ) (lastRotation : ℚ) : ℚ :=
  jsMod (segCenter n idx - jsMod lastRotation 360 + 360) 360

/-- The value of `minRotationDelta` after the `if (minRotationDelta < 1)` bump (line 34). -/
def spinDelta (n idx : ℕ) (lastRotation : ℚ) : ℚ :=
  if spinMinDelta n idx lastRotation < 1 then spinMinDelta n idx lastRotation + 360
  else spinMinDelta n idx lastRotation

/-- The final `newTotalRotation = lastRotation + (minRotationDelta + 360 * 5)`
(lines 36–38). -/
def spinTarget (n idx : ℕ) (lastRotation : ℚ) : ℚ :=
  lastRotation + (spinDelta n idx lastRotation + 360 * 5)

theorem jsMod_eq_add_int_mul (x : ℚ) : ∃ k : ℤ, jsMod x 360 = x + 360 * k :=
  ⟨-⌊x / 360⌋, by unfold jsMod; push_cast; ring⟩

/-- **C1.** Wheel simulator: for every participant count `n ≥ 1`, every
`winnerIndex < n` and every non-negative accumulated rotation, the final
rotation computed for a spin is congruent to the winning segment's center
angle `Ac` modulo 360 — the wheel rests with the winner's segment centered
under the fixed pointer. -/
theorem wheel_final_rotation_lands_on_winner (n idx : ℕ) (r : ℚ)
    (hn : 1 ≤ n) (hidx : idx < n) (hr : 0 ≤ r) :
    ∃ k : ℤ, spinTarget n idx r - segCenter n idx = 360 * k := by
  obtain ⟨k0, h0⟩ := jsMod_eq_add_int_mul r
  obtain ⟨k1, h1⟩ := jsMod_eq_add_int_mul (segCenter n idx - jsMod r 360 + 360)
  unfold spinTarget spinDelta spinMinDelta
  by_cases hb : jsMod (segCenter n idx - jsMod r 360 + 360) 360 < 1
  · refine ⟨k1 - k0 + 7, ?_⟩
    simp only [hb, if_pos]
    rw [h1, h0]
    push_cast
    ring
  · refine ⟨k1 - k0 + 6, ?_⟩
    simp only [hb, if_neg, not_false_iff]
    rw [h1, h0]
    push_cast
    ring

/-- Witness for C1 at `n = 4`, `winnerIndex = 2`, `lastRotation = 725`. -/
theorem wheel_final_rotation_lands_on_winner_witness :
    1 ≤ 4 ∧ 2 < 4 ∧ (0:ℚ) ≤ 725 ∧
      ∃ k : ℤ, spinTarget 4 2 725 - segCenter 4 2 = 360 * k :=
  ⟨by norm_num, by norm_num, by norm_num,
    wheel_final_rotation_lands_on_winner 4 2 725 (by norm_num) (by norm_num)
      (by norm_num)⟩

/-! ## History log (src/unnamed/part_000, lines 292–301)

```js
updateState({ history: [entry, ...state.history].slice(0, 50) });
```
-/

/-- Source `logHistory`: prepend the new entry and truncate to the 50 most recent
(src/unnamed/part_000 line 300). -/
def logHistoryOp (e : HistoryEntry) (log : List HistoryEntry) : List HistoryEntry :=
  (e :: log).take 50

/-- Appending a sequence of entries to a starting log, oldest first. -/
def histFold (es : List HistoryEntry) (init : List HistoryEntry) : List HistoryEntry :=
  es.foldl (fun log e => logHistoryOp e log) init

theorem take_append_take (A B : List HistoryEntry) :
    ((A ++ B.take 50).take 50) = (A ++ B).take 50 := by
  rw [List.take_append_eq_append_take, List.take_append_eq_append_take,
    List.take_take]
  congr 1
  exact congrArg (fun k => B.take k) (Nat.min_eq_left (Nat.sub_le _ _))

theorem histFold_eq (es : List HistoryEntry) (init : List HistoryEntry)
    (h : init.length ≤ 50) : histFold es init = (es.reverse ++ init).take 50 := by
  induction es generalizing init with
  | nil =>
    simp only [histFold, List.foldl_nil, List.reverse_nil, List.nil_append]
    exact (List.take_of_length_le h).symm
  | cons e es ih =>
    have h2 : ((e :: init).take 50).length ≤ 50 := by
      simpa using List.length_take_le 50 (e :: init)
    have step : histFold (e :: es) init = histFold es ((e :: init).take 50) := rfl
    rw [step, ih _ h2, List.reverse_cons, List.append_assoc,
      List.singleton_append, take_append_take]

/-- **C9.** History log truncation: `append(entry) = [entry, ...oldLog].take 50`,
strictly most-recent-first; appending 51 entries to an empty log yields a
50-entry log whose first element is the 51st appended entry and whose last
element is the 2nd appended entry (the 1st was evicted). -/
theorem history_log_truncation (es : List HistoryEntry) (h : es.length = 51) :
    (∀ e log, logHistoryOp e log = (e :: log).take 50) ∧
    histFold es [] = es.reverse.take 50 ∧
    (histFold es []).length = 50 ∧
    (histFold es [])[0]? = es[50]? ∧
    (histFold es [])[49]? = es[1]? := by
  have hfold : histFold es [] = es.reverse.take 50 := by
    rw [histFold_eq es [] (by simp), List.append_nil]
  have hrevlen : es.reverse.length = 51 := by simp [h]
  refine ⟨fun _ _ => rfl, hfold, ?_, ?_, ?_⟩
  · rw [hfold, List.length_take, hrevlen]
    omega
  · rw [hfold, List.getElem?_take_of_lt (by norm_num),
      List.getElem?_reverse (by omega), h]
  · rw [hfold, List.getElem?_take_of_lt (by norm_num),
      List.getElem?_reverse (by omega), h]

/-- Witness for C9: 51 concrete entries. -/
theorem history_log_truncation_witness :
    ((List.range 51).map
        (fun i => ({ id := i, result := toString i, mode := DrawMode.single,
                     timestamp := "" } : HistoryEntry))).length = 51 ∧
    ((histFold ((List.range 51).map
        (fun i => ({ id := i, result := toString i, mode := DrawMode.single,
                     timestamp := "" } : HistoryEntry))) [])[0]?).map HistoryEntry.id
      = some 50 := by
  refine ⟨by simp, ?_⟩
  have h := history_log_truncation
    ((List.range 51).map
      (fun i => ({ id := i, result := toString i, mode := DrawMode.single,
                   timestamp := "" } : HistoryEntry))) (by simp)
  rw [h.2.2.2.1]
  simp

/-! ## Pool manager: `selectNameIndex` / `selectTask` (src/unnamed/part_000,
lines 176–224)

`Math.random()` is modelled by an explicit rational `q ∈ [0,1)`; the code's
`Math.floor(Math.random() * pool.length)` becomes `randIdx q pool.length`.
`showToast` is a UI side effect and is elided. -/

/-- The floored index `Math.floor(q * len)` for `q ∈ [0,1)`. -/
def randIdx (q : ℚ) (len : ℕ) : ℕ := (⌊q * (len : ℚ)⌋).toNat

theorem randIdx_lt (q : ℚ) (len : ℕ) (h0 : 0 ≤ q) (h1 : q < 1) (hlen : 0 < len) :
    randIdx q len < len := by
  have hlen' : (0 : ℚ) < (len : ℚ) := by exact_mod_cast hlen
  have hmul : q * (len : ℚ) < (len : ℚ) := by
    calc q * (len : ℚ) < 1 * (len : ℚ) := by
          exact mul_lt_mul_of_pos_right h1 hlen'
      _ = (len : ℚ) := one_mul _
  have hfl : ⌊q * (len : ℚ)⌋ < (len : ℤ) := by
    apply Int.floor_lt.mpr
    exact_mod_cast hmul
  unfold randIdx
  omega

/-- The effective name pool (lines 179–182): the no-repeat pool (or all
indices), with stale out-of-bounds indices filtered out. -/
def namePool (s : AppState) : List ℕ :=
  (if s.isNameNoRepeat then s.availableNamesIndices
   else List.range s.names.length).filter (fun i => i < s.names.length)

/-- The effective task pool (lines 204–205). -/
def taskPool (s : AppState) : List ℕ :=
  (if s.isTaskNoRepeat then s.availableTasksIndices
   else List.range s.tasks.length).filter (fun i => i < s.tasks.length)

/-- Source `selectNameIndex` (lines 176–200).  On an exhausted no-repeat pool:
reset the pool, select nothing (the caller aborts the draw).  Otherwise
select `pool[⌊q·len⌋]` and, under no-repeat, remove it from the pool by
position (`newPool.splice(randIndex, 1)`). -/
def selectNameIndexM (s : AppState) (q : ℚ) : Option ℕ × AppState :=
  if s.names.length = 0 then (none, s)
  else
    let pool := namePool s
    if s.isNameNoRepeat = true ∧ pool = [] then
      (none, { s with availableNamesIndices := List.range s.names.length })
    else
      let r := randIdx q pool.length
      let selectedIndex := pool.getD r 0
      if s.isNameNoRepeat then
        (some selectedIndex, { s with availableNamesIndices := pool.eraseIdx r })
      else
        (some selectedIndex, s)

/-- Source `selectTask` (lines 202–224).  On an exhausted no-repeat pool the pool is
refreshed to the full index range and the selection proceeds immediately in
the same call against the refreshed pool. -/
def selectTaskM (s : AppState) (q : ℚ) : String × AppState :=
  if s.tasks.length = 0 then ("No Task", s)
  else
    let pool0 := taskPool s
    let pool := if s.isTaskNoRepeat = true ∧ pool0 = [] then
        List.range s.tasks.length
      else pool0
    let r := randIdx q pool.length
    let selectedIndex := pool.getD r 0
    if s.isTaskNoRepeat then
      (s.tasks.getD selectedIndex "", { s with availableTasksIndices := pool.eraseIdx r })
    else
      (s.tasks.getD selectedIndex "", s)

/-- Iterated `selectNameIndex`: perform one draw per random value, collecting
the selected indices; `none` if some call performed no selection. -/
def drawAllNames (s : AppState) : List ℚ → Option (List ℕ)
  | [] => some []
  | q :: qs =>
    match selectNameIndexM s q with
    | (some idx, s1) => (drawAllNames s1 qs).map (fun l => idx :: l)
    | (none, _) => none

theorem namePool_of_subset (s : AppState) (hnr : s.isNameNoRepeat = true)
    (hsub : ∀ x ∈ s.availableNamesIndices, x < s.names.length) :
    namePool s = s.availableNamesIndices := by
  unfold namePool
  rw [hnr]
  simp only [if_pos]
  rw [List.filter_eq_self]
  intro a ha
  simpa using hsub a ha

theorem selectNameIndexM_noRepeat (s : AppState) (q : ℚ)
    (hnr : s.isNameNoRepeat = true)
    (hsub : ∀ x ∈ s.availableNamesIndices, x < s.names.length)
    (hne : s.availableNamesIndices ≠ []) :
    selectNameIndexM s q =
      (some (s.availableNamesIndices.getD
              (randIdx q s.availableNamesIndices.length) 0),
       { s with availableNamesIndices :=
          (s.availableNamesIndices.eraseIdx
            (randIdx q s.availableNamesIndices.length)) }) := by
  have hpool : namePool s = s.availableNamesIndices := namePool_of_subset s hnr hsub
  have hlen : s.names.length ≠ 0 := by
    obtain ⟨x, hx⟩ := List.exists_mem_of_ne_nil _ hne
    have := hsub x hx
    omega
  unfold selectNameIndexM
  rw [if_neg hlen, hpool]
  rw [if_neg (by exact fun h => hne h.2)]
  rw [if_pos hnr]

theorem drawAllNames_perm (qs : List ℚ) : ∀ (s : AppState) (sel : List ℕ),
    s.isNameNoRepeat = true →
    (∀ x ∈ s.availableNamesIndices, x < s.names.length) →
    s.availableNamesIndices.Nodup →
    qs.length = s.availableNamesIndices.length →
    (∀ q ∈ qs, 0 ≤ q ∧ q < 1) →
    drawAllNames s qs = some sel →
    sel.Perm s.availableNamesIndices := by
  induction qs with
  | nil =>
    intro s sel _ _ _ hlen _ hrun
    have hnil : s.availableNamesIndices = [] :=
      List.eq_nil_of_length_eq_zero hlen.symm
    simp only [drawAllNames, Option.some.injEq] at hrun
    rw [← hrun, hnil]
  | cons q qs ih =>
    intro s sel hnr hsub hnd hlen hq hrun
    have hAlen : 0 < s.availableNamesIndices.length := by
      simp only [List.length_cons] at hlen
      omega
    have hne : s.availableNamesIndices ≠ [] := by
      intro h
      rw [h] at hAlen
      simp at hAlen
    have hr : randIdx q s.availableNamesIndices.length <
        s.availableNamesIndices.length :=
      randIdx_lt q _ (hq q (by simp)).1 (hq q (by simp)).2 hAlen
    have hsel := selectNameIndexM_noRepeat s q hnr hsub hne
    simp only [drawAllNames] at hrun
    rw [hsel] at hrun
    obtain ⟨rest, hrest, hcons⟩ := Option.map_eq_some'.mp hrun
    set A := s.availableNamesIndices with hA
    set r := randIdx q A.length with hrdef
    have hrestperm : rest.Perm (A.eraseIdx r) := by
      have hih := ih { s with availableNamesIndices := (A.eraseIdx r) } rest hnr
        (fun x hx => hsub x (List.Sublist.mem hx (List.eraseIdx_sublist A r)))
        (List.Sublist.nodup (List.eraseIdx_sublist A r) hnd)
        (by
          show qs.length = (A.eraseIdx r).length
          have := List.length_eraseIdx_add_one (l := A) (i := r) hr
          simp only [List.length_cons] at hlen
          omega)
        (fun p hp => hq p (by simp [hp]))
        hrest
      simpa using hih
    have hgetD : A.getD r 0 = A[r] := List.getD_eq_getElem A 0 hr
    have hperm1 : (A[r] :: A.eraseIdx r).Perm A := by
      have h1 : A.Perm (A[r] :: A.erase A[r]) :=
        List.perm_cons_erase (List.getElem_mem hr)
      have h2 : (A.erase A[r]).Perm (A.eraseIdx r) := List.erase_getElem hr
      exact ((h2.cons A[r]).symm.trans h1.symm)
    rw [← hcons, hgetD]
    exact (hrestperm.cons A[r]).trans hperm1

/-- **C3.** No-repeat exhaustiveness: starting from a full no-repeat pool
over `n` names (no list mutation in between), `n` successive draws select
every index in `[0, n)` exactly once, in some order — each draw removes
exactly the selected element from the pool by position. -/
theorem norepeat_draws_exhaustive (s : AppState) (qs : List ℚ) (sel : List ℕ)
    (hnr : s.isNameNoRepeat = true)
    (hfull : s.availableNamesIndices = List.range s.names.length)
    (hlen : qs.length = s.names.length)
    (hq : ∀ q ∈ qs, 0 ≤ q ∧ q < 1)
    (hrun : drawAllNames s qs = some sel) :
    sel.Perm (List.range s.names.length) ∧ sel.Nodup ∧
      ∀ i < s.names.length, sel.count i = 1 := by
  have hperm : sel.Perm s.availableNamesIndices := by
    apply drawAllNames_perm qs s sel hnr _ _ _ hq hrun
    · intro x hx
      rw [hfull] at hx
      exact List.mem_range.mp hx
    · rw [hfull]
      exact List.nodup_range _
    · rw [hfull, List.length_range]
      exact hlen
  rw [hfull] at hperm
  refine ⟨hperm, hperm.nodup_iff.mpr (List.nodup_range _), fun i hi => ?_⟩
  rw [hperm.count_eq]
  exact List.count_eq_one_of_mem (List.nodup_range _) (List.mem_range.mpr hi)

/-- Witness for C3: three names, full pool, randoms `[0, 0, 0]` select
indices `0, 1, 2`. -/
theorem norepeat_draws_exhaustive_witness :
    drawAllNames
        { names := ["A", "B", "C"], tasks := [], history := [],
          isNameNoRepeat := true, availableNamesIndices := [0, 1, 2],
          isTaskNoRepeat := false, availableTasksIndices := [],
          mode := DrawMode.single, interactiveMode := InteractiveMode.wheel,
          numGroups := 2 } [0, 0, 0] = some [0, 1, 2] ∧
      ([0, 1, 2] : List ℕ).Perm (List.range 3) := by
  have hrun : drawAllNames
      { names := ["A", "B", "C"], tasks := [], history := [],
        isNameNoRepeat := true, availableNamesIndices := [0, 1, 2],
        isTaskNoRepeat := false, availableTasksIndices := [],
        mode := DrawMode.single, interactiveMode := InteractiveMode.wheel,
        numGroups := 2 } [0, 0, 0] = some [0, 1, 2] := by
    simp [drawAllNames, selectNameIndexM, namePool, randIdx]
  refine ⟨hrun, ?_⟩
  have h := norepeat_draws_exhaustive _ [0, 0, 0] [0, 1, 2] rfl (by decide)
    (by simp) (by intro p hp; simp at hp; simp [hp]) hrun
  exact h.1

/-- **C7.** Pool-exhaustion asymmetry: an exhausted no-repeat *name* pool is
reset to the full index range and no selection is performed in that call
(the draw is deferred to the next request); an exhausted no-repeat *task*
pool is reset and the selection is retried immediately within the same call
against the refreshed full pool. -/
theorem pool_exhaustion_asymmetry :
    (∀ (s : AppState) (q : ℚ), s.names.length ≠ 0 → s.isNameNoRepeat = true →
      namePool s = [] →
      selectNameIndexM s q =
        (none, { s with availableNamesIndices := List.range s.names.length })) ∧
    (∀ (s : AppState) (q : ℚ), s.tasks.length ≠ 0 → s.isTaskNoRepeat = true →
      taskPool s = [] → 0 ≤ q → q < 1 →
      selectTaskM s q =
        (s.tasks.getD (randIdx q s.tasks.length) "",
         { s with availableTasksIndices :=
            (List.range s.tasks.length).eraseIdx (randIdx q s.tasks.length) })) := by
  constructor
  · intro s q hlen hnr hpool
    unfold selectNameIndexM
    rw [if_neg hlen]
    rw [if_pos ⟨hnr, hpool⟩]
  · intro s q hlen hnr hpool hq0 hq1
    have hr : randIdx q s.tasks.length < s.tasks.length :=
      randIdx_lt q _ hq0 hq1 (by omega)
    unfold selectTaskM
    rw [if_neg hlen]
    simp only [hpool, hnr, and_self, if_pos, if_true, List.length_range]
    congr 1
    congr 1
    rw [List.getD_eq_getElem _ 0 (by simpa using hr)]
    simp

/-- Witness for C7: a state with an exhausted name pool and one with an
exhausted task pool. -/
theorem pool_exhaustion_asymmetry_witness :
    selectNameIndexM
        { names := ["A", "B"], tasks := [], history := [],
          isNameNoRepeat := true, availableNamesIndices := [],
          isTaskNoRepeat := false, availableTasksIndices := [],
          mode := DrawMode.single, interactiveMode := InteractiveMode.wheel,
          numGroups := 2 } 0 =
      (none,
        { names := ["A", "B"], tasks := [], history := [],
          isNameNoRepeat := true, availableNamesIndices := [0, 1],
          isTaskNoRepeat := false, availableTasksIndices := [],
          mode := DrawMode.single, interactiveMode := InteractiveMode.wheel,
          numGroups := 2 }) ∧
    selectTaskM
        { names := ["A"], tasks := ["T", "U"], history := [],
          isNameNoRepeat := false, availableNamesIndices := [0],
          isTaskNoRepeat := true, availableTasksIndices := [],
          mode := DrawMode.paired, interactiveMode := InteractiveMode.wheel,
          numGroups := 2 } 0 =
      ("T",
        { names := ["A"], tasks := ["T", "U"], history := [],
          isNameNoRepeat := false, availableNamesIndices := [0],
          isTaskNoRepeat := true, availableTasksIndices := [1],
          mode := DrawMode.paired, interactiveMode := InteractiveMode.wheel,
          numGroups := 2 }) := by
  constructor
  · have h := pool_exhaustion_asymmetry.1
      { names := ["A", "B"], tasks := [], history := [],
        isNameNoRepeat := true, availableNamesIndices := [],
        isTaskNoRepeat := false, availableTasksIndices := [],
        mode := DrawMode.single, interactiveMode := InteractiveMode.wheel,
        numGroups := 2 } 0 (by simp) rfl (by simp [namePool])
    rw [h]
    decide
  · have h := pool_exhaustion_asymmetry.2
      { names := ["A"], tasks := ["T", "U"], history := [],
        isNameNoRepeat := false, availableNamesIndices := [0],
        isTaskNoRepeat := true, availableTasksIndices := [],
        mode := DrawMode.paired, interactiveMode := InteractiveMode.wheel,
        numGroups := 2 } 0 (by simp) rfl (by simp [taskPool]) le_rfl (by norm_num)
    rw [h]
    simp [randIdx]

/-! ## Orchestrator: `handleDraw`, single/paired branch (src/unnamed/part_000,
lines 226–277)

In the single/paired modes the groups and interactive branches have already
returned, and the code runs:

```js
const idx = selectNameIndex();
if (idx === null) return;
const name = state.names[idx];
let result = name;
if (state.mode === 'paired') {
  if (state.tasks.length === 0) return showToast("Add tasks for paired mode.");
  const task = selectTask();
  result = `${name} is assigned to: ${task}`;
}
logHistory(result); ...
```

`nowId`/`nowTs` model `Date.now()` and `toLocaleTimeString()`; toasts,
sounds and the result-card animation are elided. -/

def handleDrawPlain (s : AppState) (qName qTask : ℚ) (nowId : ℕ)
    (nowTs : String) : AppState :=
  if s.names.length = 0 then s
  else
    match selectNameIndexM s qName with
    | (none, s1) => s1
    | (some idx, s1) =>
      let name := s.names.getD idx ""
      if s.mode = DrawMode.paired then
        if s.tasks.length = 0 then s1
        else
          let ts := selectTaskM s1 qTask
          { ts.2 with history := (logHistoryOp ⟨nowId, name ++ " is assigned to: " ++ ts.1, s.mode, nowTs, none⟩ ts.2.history) }
      else
        { s1 with history := (logHistoryOp ⟨nowId, name, s.mode, nowTs, none⟩ s1.history) }

/-- A paired-mode state with one name, no-repeat on, and no tasks. -/
def pairedFailState : AppState :=
  { names := ["A"], tasks := [], history := [], isNameNoRepeat := true,
    availableNamesIndices := [0], isTaskNoRepeat := false,
    availableTasksIndices := [], mode := DrawMode.paired,
    interactiveMode := InteractiveMode.wheel, numGroups := 2 }

/-- **C8, counterexample.** A paired draw with names `["A"]` (no-repeat ON,
pool `[0]`) and no tasks appends no history entry, but it does *not* leave
the application state unchanged: `selectNameIndex` runs before the
empty-task check and consumes the name pool (`[0]` becomes `[]`). -/
theorem paired_failure_mutates_name_pool :
    (handleDrawPlain pairedFailState 0 0 0 "").history = pairedFailState.history ∧
    pairedFailState.availableNamesIndices = [0] ∧
    (handleDrawPlain pairedFailState 0 0 0 "").availableNamesIndices = [] ∧
    handleDrawPlain pairedFailState 0 0 0 "" ≠ pairedFailState := by
  have h1 : (handleDrawPlain pairedFailState 0 0 0 "").availableNamesIndices = [] := by
    simp [handleDrawPlain, selectNameIndexM, namePool, randIdx, pairedFailState]
  refine ⟨?_, rfl, h1, ?_⟩
  · simp [handleDrawPlain, selectNameIndexM, namePool, randIdx, pairedFailState]
  · intro h
    rw [h] at h1
    simp [pairedFailState] at h1

/-- **C8, amended.** A paired draw with a non-empty name list and an empty
task list appends no history entry and changes neither the lists nor the
task pool; but the name selection has already happened: with no-repeat OFF
the state is fully unchanged, while with no-repeat ON the name pool has
been consumed (selected index removed by position) — or reset, if it was
already exhausted. -/
theorem paired_failure_no_history_but_pool_consumed
    (s : AppState) (qName qTask : ℚ) (nowId : ℕ) (nowTs : String)
    (hmode : s.mode = DrawMode.paired) (hnames : s.names.length ≠ 0)
    (htasks : s.tasks.length = 0) :
    (handleDrawPlain s qName qTask nowId nowTs).history = s.history ∧
    (handleDrawPlain s qName qTask nowId nowTs).names = s.names ∧
    (handleDrawPlain s qName qTask nowId nowTs).tasks = s.tasks ∧
    (handleDrawPlain s qName qTask nowId nowTs).availableTasksIndices =
      s.availableTasksIndices ∧
    (s.isNameNoRepeat = false → handleDrawPlain s qName qTask nowId nowTs = s) ∧
    (s.isNameNoRepeat = true → namePool s ≠ [] →
      (handleDrawPlain s qName qTask nowId nowTs).availableNamesIndices =
        (namePool s).eraseIdx (randIdx qName (namePool s).length)) ∧
    (s.isNameNoRepeat = true → namePool s = [] →
      (handleDrawPlain s qName qTask nowId nowTs).availableNamesIndices =
        List.range s.names.length) := by
  by_cases hnr : s.isNameNoRepeat = true
  · by_cases hp : namePool s = []
    · have hsel : selectNameIndexM s qName =
          (none, { s with availableNamesIndices := List.range s.names.length }) := by
        unfold selectNameIndexM
        rw [if_neg hnames, if_pos ⟨hnr, hp⟩]
      have hs : handleDrawPlain s qName qTask nowId nowTs =
          { s with availableNamesIndices := List.range s.names.length } := by
        unfold handleDrawPlain
        rw [if_neg hnames, hsel]
      rw [hs]
      refine ⟨rfl, rfl, rfl, rfl, ?_, ?_, ?_⟩
      · intro hf
        rw [hf] at hnr
        cases hnr
      · intro _ hne
        exact absurd hp hne
      · intro _ _
        rfl
    · have hsel : selectNameIndexM s qName =
          (some ((namePool s).getD (randIdx qName (namePool s).length) 0),
           { s with availableNamesIndices :=
              ((namePool s).eraseIdx (randIdx qName (namePool s).length)) }) := by
        unfold selectNameIndexM
        rw [if_neg hnames, if_neg (fun hc => hp hc.2), if_pos hnr]
      have hs : handleDrawPlain s qName qTask nowId nowTs =
          { s with availableNamesIndices :=
              ((namePool s).eraseIdx (randIdx qName (namePool s).length)) } := by
        unfold handleDrawPlain
        rw [if_neg hnames, hsel]
        simp [hmode, htasks]
      rw [hs]
      refine ⟨rfl, rfl, rfl, rfl, ?_, ?_, ?_⟩
      · intro hf
        rw [hf] at hnr
        cases hnr
      · intro _ _
        rfl
      · intro _ habs
        exact absurd habs hp
  · have hnr' : s.isNameNoRepeat = false := by
      cases h : s.isNameNoRepeat
      · rfl
      · exact absurd h hnr
    have hsel : selectNameIndexM s qName =
        (some ((namePool s).getD (randIdx qName (namePool s).length) 0), s) := by
      unfold selectNameIndexM
      rw [if_neg hnames, if_neg (fun hc => hnr hc.1)]
      simp only [hnr', Bool.false_eq_true, if_false]
    have hs : handleDrawPlain s qName qTask nowId nowTs = s := by
      unfold handleDrawPlain
      rw [if_neg hnames, hsel]
      simp [hmode, htasks]
    rw [hs]
    refine ⟨rfl, rfl, rfl, rfl, fun _ => rfl, ?_, ?_⟩
    · intro habs _
      exact absurd habs hnr
    · intro habs _
      exact absurd habs hnr

/-- Witness for C8 (amended): the concrete paired-failure state. -/
theorem paired_failure_no_history_but_pool_consumed_witness :
    pairedFailState.mode = DrawMode.paired ∧
    pairedFailState.names.length ≠ 0 ∧
    pairedFailState.tasks.length = 0 ∧
    (handleDrawPlain pairedFailState 0 0 0 "").history = pairedFailState.history ∧
    (handleDrawPlain pairedFailState 0 0 0 "").availableNamesIndices =
      (namePool pairedFailState).eraseIdx
        (randIdx 0 (namePool pairedFailState).length) := by
  have h := paired_failure_no_history_but_pool_consumed pairedFailState 0 0 0 ""
    rfl (by simp [pairedFailState]) rfl
  exact ⟨rfl, by simp [pairedFailState], rfl, h.1,
    h.2.2.2.2.2.1 rfl (by simp [pairedFailState, namePool])⟩

/-! ## List mutations and the no-repeat pools (src/unnamed/part_000,
lines 110–172 and the two no-repeat toggles)

`addItems` receives the raw textarea value; the `split`/`trim` parsing is
elided and `newItems` is the resulting list (for tasks, the single-element
list), so that the duplicate filter and the state update are modelled
exactly. -/

/-- Source `addItems('names', value)` (lines 118–144). -/
def addItemsNames (s : AppState) (newItems : List String) : AppState :=
  let uniqueNewItems := newItems.filter (fun i => ¬ s.names.contains i)
  if uniqueNewItems = [] then s
  else
    let updatedList := s.names ++ uniqueNewItems
    { s with names := updatedList,
             availableNamesIndices := List.range updatedList.length }

/-- Source `addItems('tasks', value)` (lines 118–144). -/
def addItemsTasks (s : AppState) (item : String) : AppState :=
  let uniqueNewItems := [item].filter (fun i => ¬ s.tasks.contains i)
  if uniqueNewItems = [] then s
  else
    let updatedList := s.tasks ++ uniqueNewItems
    { s with tasks := updatedList,
             availableTasksIndices := List.range updatedList.length }

/-- Source `removeItem('names', index)` (lines 146–154). -/
def removeItemNames (s : AppState) (index : ℕ) : AppState :=
  let list := s.names.eraseIdx index
  { s with names := list, availableNamesIndices := List.range list.length }

/-- Source `removeItem('tasks', index)` (lines 146–154). -/
def removeItemTasks (s : AppState) (index : ℕ) : AppState :=
  let list := s.tasks.eraseIdx index
  { s with tasks := list, availableTasksIndices := List.range list.length }

/-- The in-place swap `[shuffled[i], shuffled[j]] = [shuffled[j], shuffled[i]]`. -/
def swapAt (l : List String) (i j : ℕ) : List String :=
  (l.set i (l.getD j "")).set j (l.getD i "")

/-- The Fisher–Yates loop of `shuffleNames` (lines 166–169): `i` runs from
`length - 1` down to `1`; `js` lists the successive values
`Math.floor(Math.random() * (i + 1))`. -/
def fyLoop : List String → ℕ → List ℕ → List String
  | l, _, [] => l
  | l, 0, _ => l
  | l, i + 1, j :: js => fyLoop (swapAt l (i + 1) j) i js

/-- Source `shuffleNames` (lines 164–172): shuffle, reset the pool to the full
index range, clear history. -/
def shuffleNamesM (s : AppState) (js : List ℕ) : AppState :=
  let shuffled := fyLoop s.names (s.names.length - 1) js
  { s with names := shuffled,
           availableNamesIndices := List.range shuffled.length,
           history := [] }

/-- The names no-repeat toggle `onChange` handler (lines 400–404): flips the
flag and resets the pool only when the new value is `true`. -/
def toggleNameNoRepeat (s : AppState) : AppState :=
  let newVal := !s.isNameNoRepeat
  if newVal then
    { s with isNameNoRepeat := newVal,
             availableNamesIndices := List.range s.names.length }
  else
    { s with isNameNoRepeat := newVal }

/-- The tasks no-repeat toggle `onChange` handler (lines 441–445). -/
def toggleTaskNoRepeat (s : AppState) : AppState :=
  let newVal := !s.isTaskNoRepeat
  if newVal then
    { s with isTaskNoRepeat := newVal,
             availableTasksIndices := List.range s.tasks.length }
  else
    { s with isTaskNoRepeat := newVal }

/-- A state mid-way through a no-repeat round: pool `[2]` of three names. -/
def midRoundState : AppState :=
  { names := ["A", "B", "C"], tasks := [], history := [], isNameNoRepeat := true,
    availableNamesIndices := [2], isTaskNoRepeat := false,
    availableTasksIndices := [], mode := DrawMode.single,
    interactiveMode := InteractiveMode.wheel, numGroups := 2 }

/-- **C10, counterexample.** Toggling no-repeat OFF does *not* set the name
pool to the full index range: from pool `[2]` over three names the toggle
leaves the pool at `[2]`, not `[0, 1, 2]`. -/
theorem norepeat_toggle_off_keeps_pool :
    (toggleNameNoRepeat midRoundState).isNameNoRepeat = false ∧
    (toggleNameNoRepeat midRoundState).availableNamesIndices = [2] ∧
    List.range (toggleNameNoRepeat midRoundState).names.length = [0, 1, 2] ∧
    ([2] : List ℕ) ≠ [0, 1, 2] := by
  refine ⟨rfl, rfl, by decide, by decide⟩

/-- **C10, amended.** Every mutation of a participant list resets its
no-repeat pool to the full index range of the updated list: `addItems`
(when it adds at least one item) and `removeItem` for both names and tasks,
`shuffleNames`, and *enabling* no-repeat all set the pool to
`[0, …, newLength-1]`, discarding all already-drawn tracking; disabling
no-repeat leaves the pool untouched. -/
theorem list_mutations_reset_pools :
    (∀ (s : AppState) (items : List String),
      items.filter (fun i => ¬ s.names.contains i) ≠ [] →
      (addItemsNames s items).availableNamesIndices =
        List.range (addItemsNames s items).names.length ∧
      (addItemsNames s items).names =
        s.names ++ items.filter (fun i => ¬ s.names.contains i)) ∧
    (∀ (s : AppState) (item : String),
      [item].filter (fun i => ¬ s.tasks.contains i) ≠ [] →
      (addItemsTasks s item).availableTasksIndices =
        List.range (addItemsTasks s item).tasks.length) ∧
    (∀ (s : AppState) (index : ℕ),
      (removeItemNames s index).availableNamesIndices =
        List.range (removeItemNames s index).names.length ∧
      (removeItemNames s index).names = s.names.eraseIdx index) ∧
    (∀ (s : AppState) (index : ℕ),
      (removeItemTasks s index).availableTasksIndices =
        List.range (removeItemTasks s index).tasks.length) ∧
    (∀ (s : AppState) (js : List ℕ),
      (shuffleNamesM s js).availableNamesIndices =
        List.range (shuffleNamesM s js).names.length) ∧
    (∀ s : AppState, s.isNameNoRepeat = false →
      (toggleNameNoRepeat s).availableNamesIndices =
        List.range s.names.length) ∧
    (∀ s : AppState, s.isTaskNoRepeat = false →
      (toggleTaskNoRepeat s).availableTasksIndices =
        List.range s.tasks.length) ∧
    (∀ s : AppState, s.isNameNoRepeat = true →
      (toggleNameNoRepeat s).availableNamesIndices =
        s.availableNamesIndices) := by
  refine ⟨?_, ?_, ?_, ?_, ?_, ?_, ?_, ?_⟩
  · intro s items hne
    simp only [addItemsNames]
    rw [if_neg hne]
    exact ⟨rfl, rfl⟩
  · intro s item hne
    simp only [addItemsTasks]
    rw [if_neg hne]
  · intro s index
    exact ⟨rfl, rfl⟩
  · intro s index
    rfl
  · intro s js
    rfl
  · intro s h
    unfold toggleNameNoRepeat
    rw [h]
    rfl
  · intro s h
    unfold toggleTaskNoRepeat
    rw [h]
    rfl
  · intro s h
    unfold toggleNameNoRepeat
    rw [h]
    rfl

/-- Witness for C10 (amended): adding one genuinely new name to the
mid-round state resets the pool to the full new range. -/
theorem list_mutations_reset_pools_witness :
    (["D"].filter (fun i => ¬ midRoundState.names.contains i) ≠ []) ∧
    (addItemsNames midRoundState ["D"]).availableNamesIndices = [0, 1, 2, 3] := by
  have h := list_mutations_reset_pools.1 midRoundState ["D"] (by decide)
  refine ⟨by decide, ?_⟩
  rw [h.1]
  decide

/-! ## Group partitioner (src/unnamed/part_000, lines 230–243)

```js
const shuffled = [...state.names].sort(() => Math.random() - 0.5);
const groups = Array.from({ length: state.numGroups }, () => []);
shuffled.forEach((name, i) => groups[i % state.numGroups].push(name));
```

`groups[i % k].push` in increasing `i` order means: group `j` holds, in
order of position, exactly the shuffled elements whose position is ≡ j
(mod k).  `assignGroups` states that directly.  The comparator-sort
`shuffled` is modelled as a permutation parameter (ECMAScript guarantees
`sort` returns a rearrangement of the elements even for an inconsistent
comparator); its distribution is the subject of the shuffle claim below. -/

def assignGroups (shuffled : List String) (k : ℕ) : List (List String) :=
  (List.range k).map
    (fun j => ((shuffled.enum.filter (fun p => p.1 % k = j)).map Prod.snd))

theorem sum_map_add_nat (L : List ℕ) (g h : ℕ → ℕ) :
    (L.map (fun j => g j + h j)).sum = (L.map g).sum + (L.map h).sum := by
  induction L with
  | nil => simp
  | cons x L ih =>
    simp only [List.map_cons, List.sum_cons, ih]
    omega

theorem sum_indicator_range (k t : ℕ) :
    ((List.range k).map (fun j => if t = j then (1:ℕ) else 0)).sum =
      if t < k then 1 else 0 := by
  induction k with
  | zero => simp
  | succ k ih =>
    rw [List.sum_range_succ, ih]
    split_ifs <;> omega

theorem sum_countP_mod (k : ℕ) (hk : 0 < k) (P : ℕ × String → Bool) :
    ∀ s : List (ℕ × String),
      ((List.range k).map
        (fun j => s.countP (fun p => P p && decide (p.1 % k = j)))).sum =
      s.countP P := by
  intro s
  induction s with
  | nil => simp
  | cons p s ih =>
    have hsplit : ∀ j, (p :: s).countP (fun q => P q && decide (q.1 % k = j)) =
        s.countP (fun q => P q && decide (q.1 % k = j)) +
          (if P p ∧ p.1 % k = j then 1 else 0) := by
      intro j
      rw [List.countP_cons]
      congr 1
      by_cases hP : P p
      · by_cases hm : p.1 % k = j <;> simp [hP, hm]
      · simp [hP]
    rw [List.map_congr_left (fun j _ => hsplit j), sum_map_add_nat, ih]
    congr 1
    by_cases hP : P p
    · have : ∀ j, (if P p ∧ p.1 % k = j then (1:ℕ) else 0) =
          if p.1 % k = j then 1 else 0 := by
        intro j
        simp [hP]
      rw [List.map_congr_left (fun j _ => this j), sum_indicator_range]
      simp [hP, Nat.mod_lt _ hk]
    · have : ∀ j, (if P p ∧ p.1 % k = j then (1:ℕ) else 0) = 0 := by
        intro j
        simp [hP]
      rw [List.map_congr_left (fun j _ => this j)]
      simp [hP]

theorem length_filter_enumFrom (f : ℕ → Bool) :
    ∀ (l : List String) (i : ℕ),
      ((List.enumFrom i l).filter (fun p => f p.1)).length =
        ((List.range' i l.length).filter f).length := by
  intro l
  induction l with
  | nil => intro i; simp
  | cons x l ih =>
    intro i
    rw [List.enumFrom_cons, List.length_cons, List.range'_succ]
    rw [List.filter_cons, List.filter_cons]
    by_cases h : f i <;> simp [h, ih]

theorem filter_mod_range_small (k j : ℕ) (hj : j < k) :
    ∀ s, s ≤ k →
      ((List.range s).filter (fun t => decide (t % k = j))).length =
        if j < s then 1 else 0 := by
  intro s
  induction s with
  | zero => intro _; simp
  | succ s ih =>
    intro hs
    rw [List.range_succ, List.filter_append, List.length_append, ih (by omega)]
    have hsmod : s % k = s := Nat.mod_eq_of_lt (by omega)
    by_cases h : s = j
    · have hsing : (List.filter (fun t => decide (t % k = j)) [s]).length = 1 := by
        simp [hsmod, h, Nat.mod_eq_of_lt hj]
      rw [hsing]
      split_ifs <;> omega
    · have hsing : (List.filter (fun t => decide (t % k = j)) [s]).length = 0 := by
        simp [hsmod, h]
      rw [hsing]
      split_ifs <;> omega

theorem filter_mod_range (k j : ℕ) (hk : 0 < k) (hj : j < k) :
    ∀ m, ((List.range m).filter (fun t => decide (t % k = j))).length =
      m / k + (if j < m % k then 1 else 0) := by
  intro m
  induction m using Nat.strong_induction_on with
  | _ m ih =>
    by_cases hm : m < k
    · rw [filter_mod_range_small k j hj m (by omega), Nat.div_eq_of_lt hm,
        Nat.mod_eq_of_lt hm]
      omega
    · have hme : m = k + (m - k) := by omega
      rw [hme, List.range_add, List.filter_append, List.length_append]
      have h1 : ((List.range k).filter (fun t => decide (t % k = j))).length = 1 := by
        rw [filter_mod_range_small k j hj k le_rfl]
        simp [hj]
      have h2 : (((List.range (m - k)).map (k + ·)).filter
          (fun t => decide (t % k = j))).length =
          ((List.range (m - k)).filter (fun t => decide (t % k = j))).length := by
        rw [List.filter_map, List.length_map]
        congr 1
        apply List.filter_congr
        intro t _
        simp only [Function.comp_apply, decide_eq_decide]
        rw [Nat.add_mod_left]
      rw [h1, h2, ih (m - k) (by omega)]
      have hd : (k + (m - k)) / k = (m - k) / k + 1 := by
        rw [Nat.add_comm k (m - k), Nat.add_div_right _ hk]
      have hmm : (k + (m - k)) % k = (m - k) % k := Nat.add_mod_left _ _
      rw [hd, hmm]
      omega

theorem assignGroups_length (l : List String) (k : ℕ) :
    (assignGroups l k).length = k := by
  simp [assignGroups]

theorem assignGroups_group_length (l : List String) (k j : ℕ) (hk : 0 < k)
    (hj : j < k) :
    ((l.enum.filter (fun p => p.1 % k = j)).map Prod.snd).length =
      l.length / k + (if j < l.length % k then 1 else 0) := by
  rw [List.length_map]
  have h1 := length_filter_enumFrom (fun t => decide (t % k = j)) l 0
  simp only [List.enum] at h1 ⊢
  rw [h1, ← List.range_eq_range', filter_mod_range k j hk hj]

theorem assignGroups_flatten_perm (l : List String) (k : ℕ) (hk : 0 < k) :
    (assignGroups l k).flatten.Perm l := by
  rw [List.perm_iff_count]
  intro a
  rw [List.count_flatten, assignGroups, List.map_map]
  have hgrp : ∀ j, (List.count a ∘ fun j =>
      ((l.enum.filter (fun p => p.1 % k = j)).map Prod.snd)) j =
      l.enum.countP (fun p => (p.2 == a) && decide (p.1 % k = j)) := by
    intro j
    simp only [Function.comp_apply, List.count, List.countP_map]
    rw [List.countP_filter]
    rfl
  rw [List.map_congr_left (fun j _ => hgrp j), sum_countP_mod k hk _ l.enum]
  have : l.enum.countP (fun p => p.2 == a) = List.count a (l.enum.map Prod.snd) := by
    rw [List.count, List.countP_map]
    rfl
  rw [this, List.enum_map_snd]

/-- **C4.** Group partition shape: for every name list and every `numGroups`
`k` with `1 ≤ k ≤ list.length`, round-robin assignment of the shuffled list
(element at shuffled position `i` goes to group `i mod k`) produces exactly
`k` groups, the sizes of any two groups differ by at most 1, and the
multiset union of the groups is the input list. -/
theorem group_partition_shape (names shuffled : List String) (k : ℕ)
    (hk : 1 ≤ k) (hkn : k ≤ names.length) (hperm : shuffled.Perm names) :
    (assignGroups shuffled k).length = k ∧
    (∀ g1 ∈ assignGroups shuffled k, ∀ g2 ∈ assignGroups shuffled k,
      g1.length ≤ g2.length + 1) ∧
    (assignGroups shuffled k).flatten.Perm names := by
  have hk0 : 0 < k := hk
  refine ⟨assignGroups_length shuffled k, ?_, (assignGroups_flatten_perm shuffled k hk0).trans hperm⟩
  intro g1 hg1 g2 hg2
  simp only [assignGroups, List.mem_map, List.mem_range] at hg1 hg2
  obtain ⟨j1, hj1, rfl⟩ := hg1
  obtain ⟨j2, hj2, rfl⟩ := hg2
  rw [assignGroups_group_length shuffled k j1 hk0 hj1,
    assignGroups_group_length shuffled k j2 hk0 hj2]
  split_ifs <;> omega

/-- Witness for C4: five names into two groups. -/
theorem group_partition_shape_witness :
    assignGroups ["A", "B", "C", "D", "E"] 2 = [["A", "C", "E"], ["B", "D"]] ∧
    (assignGroups ["A", "B", "C", "D", "E"] 2).length = 2 ∧
    (assignGroups ["A", "B", "C", "D", "E"] 2).flatten.Perm
      ["A", "B", "C", "D", "E"] := by
  have h := group_partition_shape ["A", "B", "C", "D", "E"]
    ["A", "B", "C", "D", "E"] 2 (by norm_num) (by simp) (List.Perm.refl _)
  exact ⟨by decide, h.1, h.2.2⟩

/-! ## Group-shuffle distribution (src/unnamed/part_000, line 234)

```js
const shuffled = [...state.names].sort(() => Math.random() - 0.5);
```

The comparator ignores its arguments and returns `Math.random() - 0.5`:
negative with probability 1/2, non-negative with probability 1/2 (an exact
`0.5` has probability 0).  ECMAScript leaves the resulting order
implementation-defined for such an inconsistent comparator but still
guarantees the result is a rearrangement of the elements.  Whatever
comparison sort the engine uses, its behaviour on a fixed input is a
finite binary decision tree: each internal node consumes one comparator
result (negative / non-negative), each leaf is the rearrangement returned
on that path.  `CmpTree` is that tree and `CmpTree.probOf` the probability
of each output when every comparator call is an independent fair coin. -/

/-- A decision tree of an engine's comparison sort on a fixed input:
internal nodes branch on the sign of one comparator call, leaves hold the
returned rearrangement. -/
inductive CmpTree where
  | leaf (result : List String)
  | node (neg nonneg : CmpTree)

/-- Number of internal nodes along the deepest..., used only as an exponent
bound: `probOf · * 2 ^ size` is integral. -/
def CmpTree.size : CmpTree → ℕ
  | leaf _ => 0
  | node l r => l.size + r.size + 1

/-- Probability that the sort returns `out` when each comparator result is
an independent fair coin (negative vs non-negative `Math.random() - 0.5`). -/
def CmpTree.probOf : CmpTree → List String → ℚ
  | leaf res, out => if res = out then 1 else 0
  | node l r, out => (l.probOf out + r.probOf out) / 2

/-- Well-formedness: every leaf is a rearrangement of the input (the
ECMAScript guarantee on `Array.prototype.sort`). -/
def CmpTree.wf : CmpTree → List String → Prop
  | leaf res, input => res.Perm input
  | node l r, input => l.wf input ∧ r.wf input

theorem CmpTree.probOf_nonneg (t : CmpTree) (out : List String) :
    0 ≤ t.probOf out := by
  induction t with
  | leaf res =>
    by_cases h : res = out <;> simp [probOf, h]
  | node l r ihl ihr =>
    have : (0:ℚ) ≤ l.probOf out + r.probOf out := by linarith
    simp only [probOf]
    linarith

theorem CmpTree.probOf_dyadic (t : CmpTree) (out : List String) :
    ∃ m : ℕ, t.probOf out * 2 ^ t.size = m := by
  induction t with
  | leaf res =>
    refine ⟨if res = out then 1 else 0, ?_⟩
    by_cases h : res = out <;> simp [probOf, size, h]
  | node l r ihl ihr =>
    obtain ⟨ml, hml⟩ := ihl
    obtain ⟨mr, hmr⟩ := ihr
    refine ⟨ml * 2 ^ r.size + mr * 2 ^ l.size, ?_⟩
    have key : (l.probOf out + r.probOf out) / 2 * 2 ^ (l.size + r.size + 1) =
        l.probOf out * 2 ^ l.size * 2 ^ r.size +
          r.probOf out * 2 ^ r.size * 2 ^ l.size := by
      rw [pow_succ, pow_add]
      ring
    simp only [probOf, size]
    rw [key, hml, hmr]
    push_cast
    ring

theorem CmpTree.probOf_ne_sixth (t : CmpTree) (out : List String) :
    t.probOf out ≠ 1 / 6 := by
  intro h
  obtain ⟨m, hm⟩ := t.probOf_dyadic out
  rw [h] at hm
  have h6 : (2:ℚ) ^ t.size = 6 * m := by
    field_simp at hm
    linarith
  have h6n : (2:ℕ) ^ t.size = 6 * m := by exact_mod_cast h6
  have h3 : (3:ℕ) ∣ 2 ^ t.size := ⟨2 * m, by omega⟩
  have h32 : (3:ℕ) ∣ 2 := Nat.Prime.dvd_of_dvd_pow (by norm_num) h3
  omega

/-- The claim under test, for the concrete 3-name input `["A","B","C"]`:
some decision tree realizes the shuffle (its leaves being rearrangements of
the input) and gives every permutation of the input the uniform
probability 1/6. -/
def existsUniformShuffleTree : Prop :=
  ∃ t : CmpTree, t.wf ["A", "B", "C"] ∧
    ∀ out, out.Perm ["A", "B", "C"] → t.probOf out = 1 / 6

/-- **C5, counterexample.** The group-mode shuffle
`[...names].sort(() => Math.random() - 0.5)` is not a uniformly random
permutation: whatever deterministic comparison sort the engine implements
(any `CmpTree`), every outcome probability is a dyadic rational, so on the
3-name list `["A","B","C"]` no outcome — in particular the identity
arrangement itself — can have the uniform probability 1/6. -/
theorem shuffle_sort_never_uniform : ¬ existsUniformShuffleTree :=
  fun h =>
    match h with
    | ⟨t, _, hall⟩ =>
      t.probOf_ne_sixth ["A", "B", "C"] (hall ["A", "B", "C"] (List.Perm.refl _))

/-- **C5, amended.** The shuffled copy produced before round-robin
assignment is always *some* permutation of the input (every outcome with
positive probability is a rearrangement), but it is not uniform: with the
fair random comparator, no comparison sort gives any outcome probability
exactly 1/6, so on 3 names not every permutation can be equally likely. -/
theorem shuffle_sort_perm_but_biased (t : CmpTree)
    (hwf : t.wf ["A", "B", "C"]) :
    (∀ out, t.probOf out ≠ 0 → out.Perm ["A", "B", "C"]) ∧
    ¬ (∀ out, out.Perm ["A", "B", "C"] → t.probOf out = 1 / 6) := by
  constructor
  · intro out
    induction t with
    | leaf res =>
      intro hne
      by_cases h : res = out
      · rw [← h]
        exact hwf
      · simp [CmpTree.probOf, h] at hne
    | node l r ihl ihr =>
      intro hne
      have hl0 := l.probOf_nonneg out
      have hr0 := r.probOf_nonneg out
      by_cases hl : l.probOf out = 0
      · have hr : r.probOf out ≠ 0 := by
          intro hr
          apply hne
          simp [CmpTree.probOf, hl, hr]
        exact ihr hwf.2 hr
      · exact ihl hwf.1 hl
  · intro hall
    exact t.probOf_ne_sixth ["A", "B", "C"]
      (hall ["A", "B", "C"] (List.Perm.refl _))

/-- Witness for C5 (amended): the one-leaf tree returning `["B","A","C"]`. -/
theorem shuffle_sort_perm_but_biased_witness :
    (CmpTree.leaf ["B", "A", "C"]).wf ["A", "B", "C"] ∧
    ¬ (∀ out, out.Perm ["A", "B", "C"] →
        (CmpTree.leaf ["B", "A", "C"]).probOf out = 1 / 6) := by
  have hwf : (CmpTree.leaf ["B", "A", "C"]).wf ["A", "B", "C"] := by
    show List.Perm _ _
    decide
  exact ⟨hwf, (shuffle_sort_perm_but_biased _ hwf).2⟩

/-! ## Lane races: MarbleRace (src/components/MarbleRace.tsx, lines 49–157)

```js
const BASE_DURATION = 3000;
const duration = isWinner ? BASE_DURATION : BASE_DURATION + 500 + Math.random() * 1500;
const progress = Math.min(1, elapsed / m.duration);
```
The marble's vertical progress depends only on `elapsed / duration`; the
horizontal wobble offsets the drawn x-position only and cannot affect who
reaches progress 1 first. -/

def BASE_DURATION : ℚ := 3000

/-- Per-marble traversal duration (MarbleRace.tsx line 54). -/
def marbleDuration (isWinner : Bool) (rand : ℚ) : ℚ :=
  if isWinner then BASE_DURATION else BASE_DURATION + 500 + rand * 1500

/-- Per-marble progress at a given elapsed time (line 137). -/
def marbleProgress (elapsed duration : ℚ) : ℚ := min 1 (elapsed / duration)

/-! ## Lane races: DuckRace (src/components/CardDraw.tsx, lines 160–336)

```js
const MIN_SPEED = 120, MAX_SPEED = 200, WINNER_BOOST = 1.15;
const baseSpeed = Math.random() * (MAX_SPEED - MIN_SPEED) + MIN_SPEED;
if (!isWinner) maxNonWinnerSpeed = Math.max(maxNonWinnerSpeed, baseSpeed);
const winnerSpeed = maxNonWinnerSpeed * WINNER_BOOST;
...
const wobble = Math.sin(timestamp / 1000 + duck.y / 5) * 0.15;
const currentSpeed = duck.baseSpeed * (1 + wobble);
duck.x += currentSpeed * deltaTime;           // deltaTime in seconds
if (duck.x >= finishLineX) duck.x = finishLineX;
```
`Math.sin` forces the real numbers here, so these definitions are
noncomputable. -/

noncomputable def MIN_SPEED : ℝ := 120
noncomputable def MAX_SPEED : ℝ := 200
noncomputable def WINNER_BOOST : ℝ := 1.15
noncomputable def FINISH_BUFFER : ℝ := 40

/-- A duck's random base speed from its `Math.random()` draw (line 168). -/
noncomputable def duckBase (rand : ℝ) : ℝ := rand * (MAX_SPEED - MIN_SPEED) + MIN_SPEED

/-- The running maximum of the non-winners' base speeds (lines 165–169),
seeded with `MIN_SPEED`. -/
noncomputable def maxNonWinnerSpeed (names : List String) (winner : String)
    (rands : List ℝ) : ℝ :=
  (List.zip names rands).foldl
    (fun m p => if p.1 = winner then m else max m (duckBase p.2)) MIN_SPEED

/-- The final base speeds after the winner boost (lines 182–185): every
winner-named duck gets `maxNonWinnerSpeed * WINNER_BOOST`. -/
noncomputable def duckSpeeds (names : List String) (winner : String)
    (rands : List ℝ) : List ℝ :=
  (List.zip names rands).map
    (fun p => if p.1 = winner then maxNonWinnerSpeed names winner rands * WINNER_BOOST
              else duckBase p.2)

/-- The per-frame wobble factor (line 311). -/
noncomputable def duckWobble (t y : ℝ) : ℝ := Real.sin (t / 1000 + y / 5) * 0.15

/-- One frame's position update for one duck (lines 309–315): ducks short of
the finish line advance by `baseSpeed * (1 + wobble) * deltaTime` and are
clamped at `finishLineX`; ducks at the finish stay put. -/
noncomputable def duckStep (finish base y x tPrev t : ℝ) : ℝ :=
  if x < finish then
    if x + base * (1 + duckWobble t y) * ((t - tPrev) / 1000) ≥ finish then finish
    else x + base * (1 + duckWobble t y) * ((t - tPrev) / 1000)
  else x

theorem duckStep_of_lt {finish base y x tPrev t : ℝ} (h1 : x < finish)
    (h2 : x + base * (1 + duckWobble t y) * ((t - tPrev) / 1000) < finish) :
    duckStep finish base y x tPrev t =
      x + base * (1 + duckWobble t y) * ((t - tPrev) / 1000) := by
  unfold duckStep
  rw [if_pos h1, if_neg (not_le.mpr h2)]

theorem duckStep_of_ge {finish base y x tPrev t : ℝ} (h1 : x < finish)
    (h2 : x + base * (1 + duckWobble t y) * ((t - tPrev) / 1000) ≥ finish) :
    duckStep finish base y x tPrev t = finish := by
  unfold duckStep
  rw [if_pos h1, if_pos h2]

theorem duckStep_zero_dt {finish base y x t : ℝ} (h1 : x < finish) :
    duckStep finish base y x t t = x := by
  have h0 : x + base * (1 + duckWobble t y) * ((t - t) / 1000) = x := by ring
  rw [duckStep_of_lt h1 (by rw [h0]; exact h1), h0]

/-- Lower bound: `sin z` is at least `cos c` when `z` is within `c` of `π/2`. -/
theorem sin_ge_cos_of_near_pi_div_two (z c : ℝ) (hc0 : 0 ≤ c) (hcπ : c ≤ Real.pi)
    (hnear : |Real.pi / 2 - z| ≤ c) :
    Real.cos c ≤ Real.sin z := by
  rw [← Real.cos_pi_div_two_sub z, ← Real.cos_abs (Real.pi / 2 - z)]
  exact Real.cos_le_cos_of_nonneg_of_le_pi (abs_nonneg _) hcπ hnear

/-- The winner's wobble argument at the adversarial frame:
`42.4115 = (42.4115 - 13π) + π + 6·2π` with `42.4115 - 13π` within `π/4`
of `π/2`, so `sin 42.4115 ≤ -√2/2`. -/
theorem sin_winner_arg_le : Real.sin 42.4115 ≤ -(Real.sqrt 2 / 2) := by
  have hπl := Real.pi_gt_d6
  have hπu := Real.pi_lt_d6
  have hπ0 := Real.pi_pos
  set y : ℝ := 42.4115 - 13 * Real.pi with hy
  have hdecomp : (42.4115:ℝ) = (y + Real.pi) + (6:ℕ) * (2 * Real.pi) := by
    rw [hy]
    push_cast
    ring
  have h1 : Real.sin 42.4115 = -Real.sin y := by
    rw [hdecomp, Real.sin_add_nat_mul_two_pi, Real.sin_add_pi]
  have hnear : |Real.pi / 2 - y| ≤ Real.pi / 4 := by
    rw [abs_le, hy]
    constructor <;> linarith
  have h2 : Real.cos (Real.pi / 4) ≤ Real.sin y :=
    sin_ge_cos_of_near_pi_div_two y (Real.pi / 4) (by linarith) (by linarith) hnear
  rw [h1, Real.cos_pi_div_four] at *
  linarith

/-- The non-winner's wobble argument at the adversarial frame:
`76.9715 = (76.9715 - 24π) + 12·2π` with `76.9715 - 24π` within `π/3`
of `π/2`, so `sin 76.9715 ≥ 1/2`. -/
theorem sin_nonwinner_arg_ge : (1:ℝ) / 2 ≤ Real.sin 76.9715 := by
  have hπl := Real.pi_gt_d6
  have hπu := Real.pi_lt_d6
  have hπ0 := Real.pi_pos
  set z : ℝ := 76.9715 - 24 * Real.pi with hz
  have hdecomp : (76.9715:ℝ) = z + (12:ℕ) * (2 * Real.pi) := by
    rw [hz]
    push_cast
    ring
  have h1 : Real.sin 76.9715 = Real.sin z := by
    rw [hdecomp, Real.sin_add_nat_mul_two_pi]
  have hnear : |Real.pi / 2 - z| ≤ Real.pi / 3 := by
    rw [abs_le, hz]
    constructor <;> linarith
  have h2 : Real.cos (Real.pi / 3) ≤ Real.sin z :=
    sin_ge_cos_of_near_pi_div_two z (Real.pi / 3) (by linarith) (by linarith) hnear
  rw [h1]
  rw [Real.cos_pi_div_three] at h2
  linarith

theorem sqrt_two_ge : (1.4:ℝ) ≤ Real.sqrt 2 :=
  (Real.le_sqrt (by norm_num) (by norm_num)).mpr (by norm_num)

/-- **C2, counterexample.** A DuckRace run in which the per-frame wobble
changes the finishing order, so the designated winner does *not* reach the
finish at or before every other participant.  Canvas width 648 (so
`finishLineX = 0.95·648 − 40 = 575.6`, `height = min(648·0.8, 600) = 518.4`,
two lanes at `y = 172.8` and `y = 345.6`), names `["W", "A"]` with winner
`"W"`, randoms `[0, 1/2]` (so the boosted speeds are `[184, 160]`), and
animation frames at `t = 4751.5 ms` and `t = 7851.5 ms` (a 3.1 s gap, as
after tab throttling).  At the second frame the wobble factor of `"A"` is
near `+0.15` and the winner's near `−0.15`: `"A"` reaches the finish line
while the winner is still strictly short of it. -/
theorem duck_wobble_changes_finishing_order :
    (0.95 * 648 - FINISH_BUFFER : ℝ) = 575.6 ∧
    (min (648 * 0.8) 600 / (2 + 1) * (0 + 1) : ℝ) = 172.8 ∧
    (min (648 * 0.8) 600 / (2 + 1) * (1 + 1) : ℝ) = 345.6 ∧
    duckSpeeds ["W", "A"] "W" [0, 1/2] = [184, 160] ∧
    duckStep 575.6 184 172.8 50 4751.5 4751.5 = 50 ∧
    duckStep 575.6 160 345.6 50 4751.5 4751.5 = 50 ∧
    duckStep 575.6 160 345.6 50 4751.5 7851.5 = 575.6 ∧
    duckStep 575.6 184 172.8 50 4751.5 7851.5 < 575.6 := by
  have hs2 := sqrt_two_ge
  have hw : Real.sin ((7851.5:ℝ) / 1000 + 172.8 / 5) ≤ -0.7 := by
    have harg : ((7851.5:ℝ) / 1000 + 172.8 / 5) = 42.4115 := by norm_num
    rw [harg]
    have h := sin_winner_arg_le
    linarith
  have hn : (0.5:ℝ) ≤ Real.sin ((7851.5:ℝ) / 1000 + 345.6 / 5) := by
    have harg : ((7851.5:ℝ) / 1000 + 345.6 / 5) = 76.9715 := by norm_num
    rw [harg]
    have h := sin_nonwinner_arg_ge
    linarith
  have hwinner : (50:ℝ) + 184 * (1 + duckWobble 7851.5 172.8) * ((7851.5 - 4751.5) / 1000)
      < 575.6 := by
    unfold duckWobble
    nlinarith [hw]
  have hnonwinner : (50:ℝ) + 160 * (1 + duckWobble 7851.5 345.6) * ((7851.5 - 4751.5) / 1000)
      ≥ 575.6 := by
    unfold duckWobble
    nlinarith [hn]
  refine ⟨by norm_num [FINISH_BUFFER], by norm_num [min_def], by norm_num [min_def],
    ?_, duckStep_zero_dt (by norm_num), duckStep_zero_dt (by norm_num),
    duckStep_of_ge (by norm_num) hnonwinner, ?_⟩
  · have hAW : ("A":String) = "W" ↔ False := by
      constructor
      · intro h
        exact absurd h (by decide)
      · intro h
        cases h
    simp only [duckSpeeds, maxNonWinnerSpeed, duckBase, MIN_SPEED, MAX_SPEED,
      WINNER_BOOST, List.zip_cons_cons, List.zip_nil_right, List.foldl_cons,
      List.foldl_nil, List.map_cons, List.map_nil, hAW, eq_self_iff_true,
      if_true, if_false]
    norm_num [max_def]
  · rw [duckStep_of_lt (by norm_num) hwinner]
    exact hwinner

theorem maxNonWinnerSpeed_fold_ge (winner : String) :
    ∀ (L : List (String × ℝ)) (acc : ℝ),
      acc ≤ L.foldl (fun m p => if p.1 = winner then m else max m (duckBase p.2)) acc := by
  intro L
  induction L with
  | nil => intro acc; exact le_rfl
  | cons p L ih =>
    intro acc
    refine le_trans ?_ (ih _)
    by_cases h : p.1 = winner
    · simp [h]
    · simp only [h, if_neg, ite_false]
      exact le_max_left _ _

theorem maxNonWinnerSpeed_fold_mem (winner : String) :
    ∀ (L : List (String × ℝ)) (acc : ℝ) (p : String × ℝ), p ∈ L → p.1 ≠ winner →
      duckBase p.2 ≤ L.foldl (fun m q => if q.1 = winner then m else max m (duckBase q.2)) acc := by
  intro L
  induction L with
  | nil =>
    intro acc p hp
    cases hp
  | cons q L ih =>
    intro acc p hp hpw
    rcases List.mem_cons.mp hp with heq | hmem
    · subst heq
      refine le_trans ?_ (maxNonWinnerSpeed_fold_ge winner L _)
      simp only [hpw, if_neg, ite_false]
      exact le_max_right _ _
    · exact ih _ p hmem hpw

/-- **C2, amended.** Lane-race winner bias as the code implements it.
MarbleRace: the designated winner's duration is exactly
`BASE_DURATION = 3000` ms while every non-winner's is at least 3500 ms
(and below 5000 ms), so at any elapsed time at which some non-winner has
finished the winner has finished too — the winner reaches the finish
condition at or before every other marble.  DuckRace: the winner's base
speed is set to `1.15 ×` the maximum non-winner base speed, so it strictly
exceeds every non-winner's base speed; but the per-frame wobble (amplitude
0.15 of base speed) *can* change the finishing order for some frame
schedules, as the counterexample shows. -/
theorem lane_race_winner_bias :
    (∀ r : ℚ, marbleDuration true r = 3000) ∧
    (∀ r : ℚ, 0 ≤ r → r < 1 →
      3500 ≤ marbleDuration false r ∧ marbleDuration false r < 5000) ∧
    (∀ (r e : ℚ), 0 ≤ r →
      marbleProgress e (marbleDuration false r) = 1 →
      marbleProgress e (marbleDuration true r) = 1) ∧
    (∀ (names : List String) (winner : String) (rands : List ℝ),
      MIN_SPEED ≤ maxNonWinnerSpeed names winner rands) ∧
    (∀ (names : List String) (winner : String) (rands : List ℝ)
      (p : String × ℝ), p ∈ List.zip names rands → p.1 ≠ winner →
      duckBase p.2 ≤ maxNonWinnerSpeed names winner rands ∧
      duckBase p.2 < maxNonWinnerSpeed names winner rands * WINNER_BOOST) := by
  refine ⟨fun r => rfl, ?_, ?_, ?_, ?_⟩
  · intro r h0 h1
    unfold marbleDuration BASE_DURATION
    norm_num
    constructor <;> nlinarith
  · intro r e h0 hfin
    have hd : (3500:ℚ) ≤ marbleDuration false r := by
      unfold marbleDuration BASE_DURATION
      norm_num
      nlinarith
    have hdpos : (0:ℚ) < marbleDuration false r := by linarith
    have h1 : (1:ℚ) ≤ e / marbleDuration false r := by
      by_contra hlt
      push_neg at hlt
      rw [marbleProgress, min_eq_right (le_of_lt hlt)] at hfin
      linarith
    have he : marbleDuration false r ≤ e := (one_le_div hdpos).mp h1
    have he3 : (3000:ℚ) ≤ e := by linarith
    rw [marbleProgress, marbleDuration, BASE_DURATION]
    simp only [if_pos]
    rw [min_eq_left]
    rw [le_div_iff (by norm_num)]
    linarith
  · intro names winner rands
    exact maxNonWinnerSpeed_fold_ge winner (List.zip names rands) MIN_SPEED
  · intro names winner rands p hp hpw
    have hle : duckBase p.2 ≤ maxNonWinnerSpeed names winner rands :=
      maxNonWinnerSpeed_fold_mem winner (List.zip names rands) MIN_SPEED p hp hpw
    have hmin : MIN_SPEED ≤ maxNonWinnerSpeed names winner rands :=
      maxNonWinnerSpeed_fold_ge winner (List.zip names rands) MIN_SPEED
    have hpos : (0:ℝ) < maxNonWinnerSpeed names winner rands := by
      have : (0:ℝ) < MIN_SPEED := by norm_num [MIN_SPEED]
      linarith
    refine ⟨hle, ?_⟩
    have hboost : maxNonWinnerSpeed names winner rands <
        maxNonWinnerSpeed names winner rands * WINNER_BOOST := by
      have : (1:ℝ) < WINNER_BOOST := by norm_num [WINNER_BOOST]
      nlinarith
    linarith

/-- Witness for C2 (amended): concrete marble randoms and the two-duck
setup of the counterexample. -/
theorem lane_race_winner_bias_witness :
    ((0:ℚ) ≤ 1/2 ∧ (1/2:ℚ) < 1 ∧ 3500 ≤ marbleDuration false (1/2)) ∧
    marbleProgress 4250 (marbleDuration false (1/2)) = 1 ∧
    marbleProgress 4250 (marbleDuration true (1/2)) = 1 ∧
    (("A", (1/2:ℝ)) ∈ List.zip ["W", "A"] [(0:ℝ), 1/2] ∧
      duckBase (1/2) ≤ maxNonWinnerSpeed ["W", "A"] "W" [0, 1/2]) := by
  have h2 := lane_race_winner_bias.2.1 (1/2) (by norm_num) (by norm_num)
  have hfin : marbleProgress 4250 (marbleDuration false (1/2)) = 1 := by
    unfold marbleProgress marbleDuration BASE_DURATION
    norm_num
  have h3 := lane_race_winner_bias.2.2.1 (1/2) 4250 (by norm_num) hfin
  have hmem : ("A", (1/2:ℝ)) ∈ List.zip ["W", "A"] [(0:ℝ), 1/2] := by
    simp [List.zip_cons_cons]
  have h5 := (lane_race_winner_bias.2.2.2.2 ["W", "A"] "W" [0, 1/2]
    ("A", (1/2:ℝ)) hmem (by simp)).1
  exact ⟨⟨by norm_num, by norm_num, h2.1⟩, hfin, h3, hmem, h5⟩

/-! ## Simulator cancellation (SpinWheel: src/unnamed/part_001 lines 43–49;
MarbleRace: MarbleRace.tsx lines 67–169; DuckRace: CardDraw.tsx lines
186–335; CardDraw: CardDraw.tsx lines 68–90)

Each visualization runs inside a React effect; cancellation is the effect
cleanup running before the session reaches Done (teardown, mode switch,
reset).  We model the host scheduler explicitly.  A pending `setTimeout`
is a `PendingTimer` (id, absolute fire time, and whether running it
invokes the session's completion callback); once the session is canceled,
every timer left registered eventually fires. -/

structure PendingTimer where
  id : ℕ
  fireAt : ℚ
  isCompletion : Bool
deriving DecidableEq, Repr

/-- Model of `clearTimeout(i)`: deregister that timer. -/
def clearTimeoutOp (ts : List PendingTimer) (i : ℕ) : List PendingTimer :=
  ts.filter (fun t => t.id ≠ i)

/-- Whether the timers still registered will invoke the completion callback. -/
def completionInvoked (ts : List PendingTimer) : Bool := ts.any (·.isCompletion)

/-- SpinWheel spin effect (part_001 lines 43–47): a single `setTimeout` at
`start + 6000` whose callback runs `playDrawSound()`, `setLastRotation(...)`
and `onSpinEnd()` — the completion callback. -/
def wheelEffectTimers (start : ℚ) : List PendingTimer := [⟨0, start + 6000, true⟩]

/-- SpinWheel effect cleanup (line 49): `return () => clearTimeout(timer)`. -/
def wheelEffectCleanup (ts : List PendingTimer) : List PendingTimer :=
  clearTimeoutOp ts 0

/-- CardDraw effect (CardDraw.tsx lines 68–90): three `setTimeout`s —
2000 ms (`setStep('picking')`), 3000 ms (sound + `setStep('revealed')`),
5000 ms (`onEnd()`, the completion callback). -/
def cardEffectTimers (start : ℚ) : List PendingTimer :=
  [⟨0, start + 2000, false⟩, ⟨1, start + 3000, false⟩, ⟨2, start + 5000, true⟩]

/-- The CardDraw effect returns no cleanup function: cancellation
deregisters nothing. -/
def cardEffectCleanup (ts : List PendingTimer) : List PendingTimer := ts

/-- Scheduler-relevant state of one MarbleRace session: race start time
(unset until the first frame, since `startTimeRef.current = 0` is falsy),
whether the winner has been declared, the pending `setTimeout(onRaceEnd, 2000)`
fire time if scheduled, and whether an animation-frame callback is pending. -/
structure MarbleSession where
  startTime : Option ℚ
  winnerDeclared : Bool
  raceEndAt : Option ℚ
  framePending : Bool
deriving DecidableEq, Repr

/-- The session right after the effect body ran (MarbleRace.tsx line 165):
one `requestAnimationFrame(animate)` pending, nothing else. -/
def marbleSessionStart : MarbleSession :=
  { startTime := none, winnerDeclared := false, raceEndAt := none,
    framePending := true }

/-- One `animate(timestamp)` frame of MarbleRace (lines 70–163), keeping
only the scheduler-relevant state: before the winner is declared, a frame
with `elapsed >= BASE_DURATION + 500` declares the winner and schedules
`setTimeout(onRaceEnd, 2000)`; the frame re-registers itself iff
`!winnerDeclared || elapsed < BASE_DURATION + 3000`. -/
def marbleFrame (s : MarbleSession) (t : ℚ) : MarbleSession :=
  if ¬ s.framePending then s
  else
    let start := s.startTime.getD t
    let elapsed := t - start
    if s.winnerDeclared then
      { s with startTime := some start,
               framePending := decide (elapsed < 3000 + 3000) }
    else if elapsed ≥ 3000 + 500 then
      { startTime := some start, winnerDeclared := true,
        raceEndAt := some (t + 2000),
        framePending := decide (elapsed < 3000 + 3000) }
    else
      { s with startTime := some start, framePending := true }

/-- A MarbleRace session after a list of animation frames. -/
def marbleRun (frames : List ℚ) : MarbleSession :=
  frames.foldl marbleFrame marbleSessionStart

/-- MarbleRace effect cleanup (lines 167–169):
`cancelAnimationFrame(requestRef.current)` — only the pending frame
callback is removed; a scheduled `setTimeout(onRaceEnd, 2000)` is never
cleared. -/
def marbleCleanup (s : MarbleSession) : MarbleSession :=
  { s with framePending := false }

/-- Scheduler-relevant state of one DuckRace session (CardDraw.tsx lines
186–331): positions are needed because the winner-declaration condition
reads them. -/
structure DuckLane where
  base : ℝ
  y : ℝ
  x : ℝ
  isWinner : Bool

structure DuckSession where
  startTime : Option ℝ
  lastTime : ℝ
  lanes : List DuckLane
  winnerDeclared : Bool
  raceEndAt : Option ℝ
  framePending : Bool

/-- One `animate(timestamp)` frame of DuckRace (lines 280–329): `lastTime`
is always advanced to the frame's timestamp; the winner-declared branch
draws the banner and returns without rescheduling; otherwise every duck
advances by `duckStep`, and if the winner has crossed and at least 3 s
elapsed, the winner is declared and `setTimeout(onRaceEnd, 2000)` is
scheduled. -/
noncomputable def duckFrame (finish : ℝ) (s : DuckSession) (t : ℝ) : DuckSession :=
  if ¬ s.framePending then s
  else
    let start := s.startTime.getD t
    let last := if s.startTime.isSome then s.lastTime else t
    if s.winnerDeclared then
      { s with startTime := some start, lastTime := t, framePending := false }
    else
      let lanes := s.lanes.map
        (fun d => { d with x := duckStep finish d.base d.y d.x last t })
      if (lanes.any (fun d => d.isWinner && decide (d.x ≥ finish)))
          ∧ (t - start) / 1000 ≥ 3 then
        { startTime := some start, lastTime := t, lanes := lanes,
          winnerDeclared := true, raceEndAt := some (t + 2000),
          framePending := true }
      else
        { startTime := some start, lastTime := t, lanes := lanes,
          winnerDeclared := false, raceEndAt := s.raceEndAt,
          framePending := true }

/-- The DuckRace session right after the effect body ran (CardDraw.tsx
lines 164–331): ducks set up in their lanes, no winner declared, no
`onRaceEnd` timer, `let lastTime = 0`, and one
`requestAnimationFrame(animate)` pending (line 331). -/
def duckSessionStart (lanes : List DuckLane) : DuckSession :=
  { startTime := none, lastTime := 0, lanes := lanes,
    winnerDeclared := false, raceEndAt := none, framePending := true }

/-- A DuckRace session after a list of animation frames. -/
noncomputable def duckRunFrames (finish : ℝ) (lanes : List DuckLane)
    (frames : List ℝ) : DuckSession :=
  frames.foldl (duckFrame finish) (duckSessionStart lanes)

/-- DuckRace effect cleanup (lines 333–335): identical in structure to
MarbleRace's — cancels only the pending animation frame. -/
def duckSessionCleanup (s : DuckSession) : DuckSession :=
  { s with framePending := false }

theorem duckFrame_quiet_invariant (finish : ℝ) (s : DuckSession) (t : ℝ)
    (h : s.winnerDeclared = false → s.raceEndAt = none) :
    (duckFrame finish s t).winnerDeclared = false →
      (duckFrame finish s t).raceEndAt = none := by
  cases hfp : s.framePending with
  | false =>
    have hid : duckFrame finish s t = s := by
      unfold duckFrame
      rw [if_pos (by simp [hfp])]
    rw [hid]
    exact h
  | true =>
    cases hwd : s.winnerDeclared with
    | true =>
      have hres : (duckFrame finish s t).winnerDeclared = true := by
        unfold duckFrame
        rw [if_neg (by simp [hfp]), if_pos hwd]
        exact hwd
      intro hf
      rw [hres] at hf
      cases hf
    | false =>
      have hr := h hwd
      unfold duckFrame
      rw [if_neg (by simp [hfp]), if_neg (by simp [hwd])]
      dsimp only
      split <;> split
      · intro hf
        exact absurd hf (by simp)
      · intro _
        exact hr
      · intro hf
        exact absurd hf (by simp)
      · intro _
        exact hr

theorem duckRun_quiet_invariant (finish : ℝ) :
    ∀ (frames : List ℝ) (s : DuckSession),
      (s.winnerDeclared = false → s.raceEndAt = none) →
      (frames.foldl (duckFrame finish) s).winnerDeclared = false →
      (frames.foldl (duckFrame finish) s).raceEndAt = none := by
  intro frames
  induction frames with
  | nil =>
    intro s h
    exact h
  | cons t frames ih =>
    intro s h
    rw [List.foldl_cons]
    exact ih _ (duckFrame_quiet_invariant finish s t h)

theorem duckRun_stays_quiet (finish t1 : ℝ) :
    ∀ (rest : List ℝ) (lanes : List DuckLane) (lt : ℝ),
      (∀ t ∈ rest, (t - t1) / 1000 < 3) →
      ∃ (lanes2 : List DuckLane) (lt2 : ℝ),
        rest.foldl (duckFrame finish)
          { startTime := some t1, lastTime := lt, lanes := lanes,
            winnerDeclared := false, raceEndAt := none, framePending := true } =
        { startTime := some t1, lastTime := lt2, lanes := lanes2,
          winnerDeclared := false, raceEndAt := none, framePending := true } := by
  intro rest
  induction rest with
  | nil =>
    intro lanes lt _
    exact ⟨lanes, lt, rfl⟩
  | cons t rest ih =>
    intro lanes lt hall
    have hstep : duckFrame finish
        { startTime := some t1, lastTime := lt, lanes := lanes,
          winnerDeclared := false, raceEndAt := none, framePending := true } t =
        { startTime := some t1, lastTime := t,
          lanes := lanes.map
            (fun d => { d with x := duckStep finish d.base d.y d.x lt t }),
          winnerDeclared := false, raceEndAt := none, framePending := true } := by
      unfold duckFrame
      rw [if_neg (by simp), if_neg (by simp)]
      rw [if_neg ?hc]
      case hc =>
        intro hc
        have hlt := hall t (by simp)
        have h2 := hc.2
        simp only [Option.getD_some] at h2
        linarith
      simp only [Option.getD_some, Option.isSome_some, if_pos]
    rw [List.foldl_cons, hstep]
    exact ih _ _ (fun p hp => hall p (by simp [hp]))

/-- **C6, counterexample.** A canceled CardDraw session still invokes its
completion callback: the CardDraw effect registers no cleanup, so
cancellation deregisters none of the three phase timers and the 5000 ms
`onEnd` timer remains pending and fires. -/
theorem card_cancellation_still_fires_completion :
    cardEffectCleanup (cardEffectTimers 0) = cardEffectTimers 0 ∧
    completionInvoked (cardEffectCleanup (cardEffectTimers 0)) = true :=
  ⟨rfl, rfl⟩

theorem marbleRun_stays_quiet (st : ℚ) :
    ∀ rest : List ℚ, (∀ t ∈ rest, t - st < 3500) →
      rest.foldl marbleFrame
        { startTime := some st, winnerDeclared := false, raceEndAt := none,
          framePending := true } =
      { startTime := some st, winnerDeclared := false, raceEndAt := none,
        framePending := true } := by
  intro rest
  induction rest with
  | nil => intro _; rfl
  | cons t rest ih =>
    intro hall
    have hstep : marbleFrame
        { startTime := some st, winnerDeclared := false, raceEndAt := none,
          framePending := true } t =
        { startTime := some st, winnerDeclared := false, raceEndAt := none,
          framePending := true } := by
      unfold marbleFrame
      have h1 : ¬ (t - st ≥ 3000 + 500) := by
        have := hall t (by simp)
        push_neg
        linarith
      simp [h1]
    rw [List.foldl_cons, hstep]
    exact ih (fun p hp => hall p (by simp [hp]))

/-- **C6, amended.** Cancellation behaviour as implemented.  SpinWheel:
the cleanup clears its single completion timer, so a canceled wheel session
has no pending timers and never invokes `onSpinEnd`.  MarbleRace and
DuckRace: the cleanup cancels only the pending animation-frame callback;
if the session is canceled before any winner-declaration frame ran
(for marbles, no frame with `elapsed ≥ 3500 ms`; for ducks, no frame on
which the winner had crossed with at least 3 s elapsed — in particular
whenever every frame is within 3 s of the first), no completion timer was
ever scheduled and `onRaceEnd` is never invoked; but a
`setTimeout(onRaceEnd, 2000)` already scheduled by a winner-declaration
frame survives cancellation and still fires.  CardDraw registers no
cleanup at all: all three phase timers survive cancellation and `onEnd`
is always invoked. -/
theorem simulator_cancellation_behaviour :
    (∀ start : ℚ, wheelEffectCleanup (wheelEffectTimers start) = [] ∧
      completionInvoked (wheelEffectCleanup (wheelEffectTimers start)) = false) ∧
    (∀ start : ℚ, cardEffectCleanup (cardEffectTimers start) = cardEffectTimers start ∧
      completionInvoked (cardEffectTimers start) = true) ∧
    (∀ s : MarbleSession, (marbleCleanup s).framePending = false ∧
      (marbleCleanup s).raceEndAt = s.raceEndAt) ∧
    (∀ (t1 : ℚ) (rest : List ℚ), (∀ t ∈ rest, t - t1 < 3500) →
      (marbleCleanup (marbleRun (t1 :: rest))).raceEndAt = none) ∧
    ((marbleCleanup (marbleRun [1000, 4600])).raceEndAt = some 6600 ∧
      (marbleCleanup (marbleRun [1000, 4600])).framePending = false) ∧
    (∀ s : DuckSession, (duckSessionCleanup s).framePending = false ∧
      (duckSessionCleanup s).raceEndAt = s.raceEndAt) ∧
    (∀ (finish : ℝ) (lanes : List DuckLane) (frames : List ℝ),
      (duckRunFrames finish lanes frames).winnerDeclared = false →
      (duckSessionCleanup (duckRunFrames finish lanes frames)).raceEndAt = none) ∧
    (∀ (finish : ℝ) (lanes : List DuckLane) (t1 : ℝ) (rest : List ℝ),
      (∀ t ∈ rest, (t - t1) / 1000 < 3) →
      (duckSessionCleanup (duckRunFrames finish lanes (t1 :: rest))).raceEndAt = none) := by
  have hfirst : ∀ t1 : ℚ, marbleFrame marbleSessionStart t1 =
      { startTime := some t1, winnerDeclared := false, raceEndAt := none,
        framePending := true } := by
    intro t1
    unfold marbleFrame marbleSessionStart
    norm_num
  refine ⟨fun start => ⟨rfl, rfl⟩, fun start => ⟨rfl, rfl⟩,
    fun s => ⟨rfl, rfl⟩, ?_, ?_, fun s => ⟨rfl, rfl⟩, ?_, ?_⟩
  · intro t1 rest hall
    show (marbleRun (t1 :: rest)).raceEndAt = none
    unfold marbleRun
    rw [List.foldl_cons, hfirst t1, marbleRun_stays_quiet t1 rest hall]
  · constructor
    · show (marbleRun [1000, 4600]).raceEndAt = some 6600
      unfold marbleRun
      rw [List.foldl_cons, hfirst 1000, List.foldl_cons, List.foldl_nil]
      unfold marbleFrame
      norm_num
    · rfl
  · intro finish lanes frames hnd
    show (duckRunFrames finish lanes frames).raceEndAt = none
    exact duckRun_quiet_invariant finish frames (duckSessionStart lanes)
      (fun _ => rfl) hnd
  · intro finish lanes t1 rest hall
    show (duckRunFrames finish lanes (t1 :: rest)).raceEndAt = none
    have hfirstDuck : duckFrame finish (duckSessionStart lanes) t1 =
        { startTime := some t1, lastTime := t1,
          lanes := lanes.map
            (fun d => { d with x := duckStep finish d.base d.y d.x t1 t1 }),
          winnerDeclared := false, raceEndAt := none, framePending := true } := by
      unfold duckFrame duckSessionStart
      rw [if_neg (by simp), if_neg (by simp)]
      rw [if_neg ?hc]
      case hc =>
        intro hc
        have h2 := hc.2
        simp only [Option.getD_none] at h2
        linarith
      simp only [Option.getD_none, Option.isSome_none, if_neg]
      norm_num
    unfold duckRunFrames
    rw [List.foldl_cons, hfirstDuck]
    obtain ⟨lanes2, lt2, hrun⟩ := duckRun_stays_quiet finish t1 rest
      (lanes.map (fun d => { d with x := duckStep finish d.base d.y d.x t1 t1 }))
      t1 hall
    rw [hrun]

/-- Witness for C6 (amended): concrete instances of each hypothesis-bearing
conjunct. -/
theorem simulator_cancellation_behaviour_witness :
    completionInvoked (wheelEffectCleanup (wheelEffectTimers 0)) = false ∧
    completionInvoked (cardEffectTimers 0) = true ∧
    ((0:ℚ) - 0 < 3500 → (marbleCleanup (marbleRun [0, 0])).raceEndAt = none) ∧
    (duckRunFrames 100 [] []).winnerDeclared = false ∧
    (duckSessionCleanup (duckRunFrames 100 [] [])).raceEndAt = none ∧
    (duckSessionCleanup (duckRunFrames 100 [] [0])).raceEndAt = none := by
  refine ⟨(simulator_cancellation_behaviour.1 0).2,
    (simulator_cancellation_behaviour.2.1 0).2, fun _ => ?_, rfl, ?_, ?_⟩
  · exact simulator_cancellation_behaviour.2.2.2.1 0 [0]
      (by intro t ht; simp at ht; simp [ht])
  · exact simulator_cancellation_behaviour.2.2.2.2.2.2.1 100 [] [] rfl
  · exact simulator_cancellation_behaviour.2.2.2.2.2.2.2 100 [] 0 [] (by simp)

end EduDraw
